import Mathlib

/-!
Shallow embedding of the core of the go-url-shortening repository:
the in-memory URL store (`storage/inmemory.go`, `InMemoryStorage`), the URL
service (`services/url_service.go`), and the per-IP rate limiter middleware
(`handlers/middleware.go`).

Modelling conventions:
* Go `time.Time` timestamps on URL records are natural numbers; each
  operation that calls `time.Now()` takes the sampled instant as an
  explicit `now` parameter.
* The Go `map[string]types.URLData` is an association list
  `List (String × URLData)`; `mapLookup` / `mapInsert` / `mapDelete` are
  Go map indexing, assignment and `delete`.  The list order stands in for
  one admissible (unspecified) Go map iteration order.
* A `context.Context` is reduced to the one observable the code reads:
  whether `ctx.Done()` is already closed, and which error `ctx.Err()`
  then reports.
* Go `error` values of the relevant packages form the inductive `GoErr`;
  `none : Option GoErr` is Go's `nil` error.
* The mutex is not modelled: every operation holds the lock for its whole
  body, so the sequential functions below are the linearized behaviour.
-/

/-- Go struct `types.URLData` (types/types.go). -/
structure URLData where
  shortURL : String
  originalURL : String
  createdAt : Nat
  updatedAt : Nat
  deriving Repr, DecidableEq

/-- Go zero value `types.URLData{}`. -/
def URLData.empty : URLData := ⟨"", "", 0, 0⟩

/-- Error values of the `storage` and `services` packages, plus the two
context errors (`context.Canceled`, `context.DeadlineExceeded`) and the
entropy failure of `utils.GenerateShortURL`.  Distinct constructors model
distinct Go error values. -/
inductive GoErr where
  | storageShortURLExists
  | storageShortURLNotFound
  | storageCapacityReached
  | svcShortURLExists
  | svcShortURLNotFound
  | svcStorageCapacityReached
  | ctxCanceled
  | ctxDeadlineExceeded
  | randomSourceError
  deriving Repr, DecidableEq

/-- The observable state of a `context.Context` at the moment an operation
starts: still live, already cancelled, or deadline already expired. -/
inductive Ctx where
  | background
  | canceled
  | deadlineExceeded
  deriving Repr, DecidableEq

/-- Go `ctx.Err()`: `nil` for a live context, otherwise the context error.
The `select { case <-ctx.Done(): ... }` guard in every storage operation
fires exactly when this is `some`. -/
def Ctx.err : Ctx → Option GoErr
  | .background => none
  | .canceled => some .ctxCanceled
  | .deadlineExceeded => some .ctxDeadlineExceeded

/-- Go map read `m[k]` (with the `ok` bit as `Option`). -/
def mapLookup {α : Type} (m : List (String × α)) (k : String) : Option α :=
  match m with
  | [] => none
  | (k₀, v₀) :: rest => if k₀ = k then some v₀ else mapLookup rest k

/-- Go map assignment `m[k] = v`: replaces the entry if the key is
present, otherwise appends a fresh entry. -/
def mapInsert {α : Type} (m : List (String × α)) (k : String) (v : α) :
    List (String × α) :=
  match m with
  | [] => [(k, v)]
  | (k₀, v₀) :: rest =>
      if k₀ = k then (k, v) :: rest else (k₀, v₀) :: mapInsert rest k v

/-- Go `delete(m, k)`. -/
def mapDelete {α : Type} (m : List (String × α)) (k : String) :
    List (String × α) :=
  match m with
  | [] => []
  | (k₀, v₀) :: rest =>
      if k₀ = k then mapDelete rest k else (k₀, v₀) :: mapDelete rest k

/-- The `for shortURL, storedOriginalURL := range s.urls` scan of
`GetShortURL`: first entry whose `OriginalURL` field matches. -/
def findByURL (m : List (String × URLData)) (u : String) :
    Option (String × URLData) :=
  match m with
  | [] => none
  | (k₀, v₀) :: rest =>
      if v₀.originalURL = u then some (k₀, v₀) else findByURL rest u

/-- Number of live records whose `OriginalURL` field equals `u`. -/
def countURL (m : List (String × URLData)) (u : String) : Nat :=
  match m with
  | [] => 0
  | (_, v₀) :: rest => (if v₀.originalURL = u then 1 else 0) + countURL rest u

/-- Keys of the association list (the short keys of the live records). -/
def storeKeys {α : Type} (m : List (String × α)) : List String :=
  m.map Prod.fst

/-- Go struct `storage.InMemoryStorage` (logger and mutex omitted: the
logger only writes log lines, the mutex serializes whole operations). -/
structure InMemoryStorage where
  urls : List (String × URLData)
  capacity : Int
  count : Int
  deriving Repr, DecidableEq

/-- Go `storage.NewInMemoryStorage`: a non-positive requested capacity
falls back to the default 1000; the map starts empty and `count` starts
at the Go zero value 0. -/
def NewInMemoryStorage (capacity : Int) : InMemoryStorage :=
  let cap := if capacity ≤ 0 then 1000 else capacity
  { urls := [], capacity := cap, count := 0 }

/-- Go `(*InMemoryStorage).Create`: context guard, capacity check, key
existence check, then insert with `CreatedAt`/`UpdatedAt` stamped to the
current instant and `count` incremented.  Returns the post state and the
returned error. -/
def InMemoryStorage.Create (s : InMemoryStorage) (ctx : Ctx)
    (urlData : URLData) (now : Nat) : InMemoryStorage × Option GoErr :=
  match ctx.err with
  | some e => (s, some e)
  | none =>
      if s.count ≥ s.capacity then
        (s, some .storageCapacityReached)
      else
        match mapLookup s.urls urlData.shortURL with
        | some _ => (s, some .storageShortURLExists)
        | none =>
            let stamped := { urlData with createdAt := now, updatedAt := now }
            ({ s with
                urls := mapInsert s.urls stamped.shortURL stamped,
                count := s.count + 1 }, none)

/-- Go `(*InMemoryStorage).GetURLData`: context guard, then map read.
The store state is not returned because the code never mutates it. -/
def InMemoryStorage.GetURLData (s : InMemoryStorage) (ctx : Ctx)
    (shortURL : String) : URLData × Option GoErr :=
  match ctx.err with
  | some e => (URLData.empty, some e)
  | none =>
      match mapLookup s.urls shortURL with
      | some urlData => (urlData, none)
      | none => (URLData.empty, some .storageShortURLNotFound)

/-- Go `(*InMemoryStorage).GetShortURL`: context guard, then a linear
scan for a record whose `OriginalURL` matches. -/
def InMemoryStorage.GetShortURL (s : InMemoryStorage) (ctx : Ctx)
    (originalURL : String) : String × Option GoErr :=
  match ctx.err with
  | some e => ("", some e)
  | none =>
      match findByURL s.urls originalURL with
      | some entry => (entry.1, none)
      | none => ("", some .storageShortURLNotFound)

/-- Go `(*InMemoryStorage).Update`: context guard, existence check, then
replace the record, keeping the old `CreatedAt` and stamping `UpdatedAt`
to the current instant. -/
def InMemoryStorage.Update (s : InMemoryStorage) (ctx : Ctx)
    (urlData : URLData) (now : Nat) : InMemoryStorage × Option GoErr :=
  match ctx.err with
  | some e => (s, some e)
  | none =>
      match mapLookup s.urls urlData.shortURL with
      | none => (s, some .storageShortURLNotFound)
      | some oldURLData =>
          let merged := { urlData with
              createdAt := oldURLData.createdAt, updatedAt := now }
          ({ s with urls := mapInsert s.urls merged.shortURL merged }, none)

/-- Go `(*InMemoryStorage).Delete`: context guard, existence check, then
remove the entry and decrement `count`. -/
def InMemoryStorage.Delete (s : InMemoryStorage) (ctx : Ctx)
    (shortURL : String) : InMemoryStorage × Option GoErr :=
  match ctx.err with
  | some e => (s, some e)
  | none =>
      match mapLookup s.urls shortURL with
      | none => (s, some .storageShortURLNotFound)
      | some _ =>
          ({ s with
              urls := mapDelete s.urls shortURL,
              count := s.count - 1 }, none)

/-- Go `services.handleStorageError`: 1:1 relabeling of the three storage
errors into the service-level errors; anything else passes through. -/
def handleStorageError : GoErr → GoErr
  | .storageShortURLExists => .svcShortURLExists
  | .storageCapacityReached => .svcStorageCapacityReached
  | .storageShortURLNotFound => .svcShortURLNotFound
  | e => e

/-- Go `(*urlService).CreateShortURL`.  `gen` is the outcome of the call
to `utils.GenerateShortURL` (`none` models an entropy-source failure);
`nowSvc` is the service's `time.Now()` sample used to build the candidate
record and `nowStore` is the sample `Create` takes when stamping it.
Returns the post store state, the returned `URLData` and the error. -/
def urlService.CreateShortURL (s : InMemoryStorage) (ctx : Ctx)
    (originalURL : String) (gen : Option String) (nowSvc nowStore : Nat) :
    InMemoryStorage × URLData × Option GoErr :=
  let found := s.GetShortURL ctx originalURL
  match found.2 with
  | none =>
      let read := s.GetURLData ctx found.1
      match read.2 with
      | some e => (s, URLData.empty, some (handleStorageError e))
      | none => (s, read.1, none)
  | some e =>
      if e ≠ .storageShortURLNotFound then
        (s, URLData.empty, some (handleStorageError e))
      else
        match gen with
        | none => (s, URLData.empty, some .randomSourceError)
        | some shortURL =>
            let urlData : URLData :=
              { shortURL := shortURL, originalURL := originalURL,
                createdAt := nowSvc, updatedAt := nowSvc }
            let created := s.Create ctx urlData nowStore
            match created.2 with
            | some e => (created.1, URLData.empty, some (handleStorageError e))
            | none => (created.1, urlData, none)

/-- Go `(*urlService).GetURLData`: delegate to the store, translating
errors. -/
def urlService.GetURLData (s : InMemoryStorage) (ctx : Ctx)
    (shortURL : String) : URLData × Option GoErr :=
  let read := s.GetURLData ctx shortURL
  match read.2 with
  | some e => (URLData.empty, some (handleStorageError e))
  | none => (read.1, none)

/-- Go `(*urlService).UpdateURL`: read the existing record, overwrite
`OriginalURL` (and provisionally `UpdatedAt`, which `Update` re-stamps),
then delegate to the store.  `nowSvc` is the service's `time.Now()`
sample, `nowStore` the one `Update` takes. -/
def urlService.UpdateURL (s : InMemoryStorage) (ctx : Ctx)
    (shortURL newURL : String) (nowSvc nowStore : Nat) :
    InMemoryStorage × Option GoErr :=
  let read := s.GetURLData ctx shortURL
  match read.2 with
  | some e => (s, some (handleStorageError e))
  | none =>
      let urlData := { read.1 with originalURL := newURL, updatedAt := nowSvc }
      let updated := s.Update ctx urlData nowStore
      match updated.2 with
      | some e => (updated.1, some (handleStorageError e))
      | none => (updated.1, none)

/-- Go `(*urlService).DeleteURL`: delegate to the store, translating
errors. -/
def urlService.DeleteURL (s : InMemoryStorage) (ctx : Ctx)
    (shortURL : String) : InMemoryStorage × Option GoErr :=
  let deleted := s.Delete ctx shortURL
  match deleted.2 with
  | some e => (deleted.1, some (handleStorageError e))
  | none => (deleted.1, none)

/-- Token-bucket state of a `golang.org/x/time/rate.Limiter` as used by
the middleware: `limit` tokens refill per second (the unit of `rate.Limit`)
up to `burst`; `tokens` is the balance at instant `last`.  Times are
rational seconds and token balances rationals, the exact arithmetic the
library's float64 computation implements on the integral rates and
durations at issue here. -/
structure RateLimiter where
  limit : ℚ
  burst : ℚ
  tokens : ℚ
  last : ℚ
  deriving Repr, DecidableEq

/-- Go `rate.NewLimiter(r, b)`.  The library leaves `tokens` and `last`
zero-valued, so with a positive rate the bucket computes to a full burst
at the first use; that is modelled directly as a bucket holding `b`
tokens at time 0 (all uses happen at times ≥ 0). -/
def newRateLimiter (r b : Int) : RateLimiter :=
  { limit := (r : ℚ), burst := (b : ℚ), tokens := (b : ℚ), last := 0 }

/-- The library's `advance`: the token balance at `now`, refilled at
`limit` per second since `last` and capped at `burst` (clocks are taken
monotone, `now ≥ last`). -/
def RateLimiter.advance (l : RateLimiter) (now : ℚ) : ℚ :=
  min l.burst (l.tokens + (now - l.last) * l.limit)

/-- Go `(*rate.Limiter).Allow()` called at instant `now`: non-blocking,
consumes one token when the advanced balance reaches 1, otherwise denies.
On denial the limiter state is not committed (the balance is recomputed
from `last` on the next call, which is observationally the same). -/
def RateLimiter.allow (l : RateLimiter) (now : ℚ) : Bool × RateLimiter :=
  let tokens := l.advance now
  if 1 ≤ tokens then
    (true, { l with tokens := tokens - 1, last := now })
  else
    (false, l)

/-- A run of `n` consecutive `Allow` calls, all at instant `now`,
returning the verdicts in order and the final limiter state. -/
def RateLimiter.allowRun (l : RateLimiter) (now : ℚ) :
    Nat → List Bool × RateLimiter
  | 0 => ([], l)
  | n + 1 =>
      let first := l.allow now
      let rest := first.2.allowRun now n
      (first.1 :: rest.1, rest.2)

/-- Go struct `client` of the rate-limit middleware: a limiter plus the
`lastSeen` timestamp the cleanup goroutine inspects. -/
structure ClientEntry where
  limiter : RateLimiter
  lastSeen : ℚ
  deriving Repr, DecidableEq

/-- The fields of `config.Config` the middleware consumes.  `rateLimit`
is the Go `int` field `RateLimit`; `ratePeriod` is the duration field
`RatePeriod` in seconds. -/
structure Config where
  rateLimit : Int
  ratePeriod : ℚ
  deriving Repr, DecidableEq

/-- One execution of the handler closure returned by
`URLHandler.RateLimitMiddleware` for a request from client `ip` at
instant `now`: insert a fresh `rate.NewLimiter(rate.Limit(cfg.RateLimit),
cfg.RateLimit)` entry if the key is absent, refresh `lastSeen`, then ask
the limiter.  Returns whether the request passed and the updated client
map. -/
def rateLimitStep (cfg : Config) (clients : List (String × ClientEntry))
    (ip : String) (now : ℚ) : Bool × List (String × ClientEntry) :=
  let withClient :=
    match mapLookup clients ip with
    | some _ => clients
    | none =>
        mapInsert clients ip
          { limiter := newRateLimiter cfg.rateLimit cfg.rateLimit,
            lastSeen := 0 }
  match mapLookup withClient ip with
  | some entry =>
      let verdict := entry.limiter.allow now
      (verdict.1,
        mapInsert withClient ip { limiter := verdict.2, lastSeen := now })
  | none => (false, withClient)

/-- The middleware constant `cleanupInterval = time.Minute`, in seconds. -/
def cleanupInterval : ℚ := 60

/-- The middleware constant `clientInactiveFor = 3 * time.Minute`, in
seconds. -/
def clientInactiveFor : ℚ := 180

/-- One pass of the body of `cleanupInactiveClients`, executed at instant
`now`: range over all entries and delete those with
`time.Since(client.lastSeen) > clientInactiveFor`. -/
def cleanupPass (clients : List (String × ClientEntry)) (now : ℚ) :
    List (String × ClientEntry) :=
  match clients with
  | [] => []
  | (ip, entry) :: rest =>
      if now - entry.lastSeen > clientInactiveFor then cleanupPass rest now
      else (ip, entry) :: cleanupPass rest now

@[simp]
theorem storeKeys_nil {α : Type} : storeKeys ([] : List (String × α)) = [] :=
  rfl

@[simp]
theorem storeKeys_cons {α : Type} (p : String × α) (m : List (String × α)) :
    storeKeys (p :: m) = p.1 :: storeKeys m :=
  rfl

@[simp]
theorem storeKeys_append {α : Type} (m l : List (String × α)) :
    storeKeys (m ++ l) = storeKeys m ++ storeKeys l := by
  simp [storeKeys]

theorem mapLookup_eq_none_iff {α : Type} (m : List (String × α)) (k : String) :
    mapLookup m k = none ↔ k ∉ storeKeys m := by
  induction m with
  | nil => simp [mapLookup]
  | cons p rest ih =>
      obtain ⟨k₀, v₀⟩ := p
      by_cases h : k₀ = k
      · subst h
        simp [mapLookup]
      · simp only [mapLookup, if_neg h, storeKeys_cons, List.mem_cons]
        rw [ih]
        constructor
        · rintro hk (rfl | hm)
          · exact h rfl
          · exact hk hm
        · intro hk hm
          exact hk (Or.inr hm)

theorem mapLookup_isSome_of_mem {α : Type} {m : List (String × α)}
    {k : String} {v : α} (h : (k, v) ∈ m) : ∃ w, mapLookup m k = some w := by
  induction m with
  | nil => cases h
  | cons p rest ih =>
      obtain ⟨k₀, v₀⟩ := p
      by_cases hk : k₀ = k
      · exact ⟨v₀, by simp [mapLookup, hk]⟩
      · rcases List.mem_cons.mp h with heq | hm
        · cases heq
          exact absurd rfl hk
        · simpa [mapLookup, hk] using ih hm

theorem mapLookup_mem {α : Type} {m : List (String × α)} {k : String} {v : α}
    (h : mapLookup m k = some v) : (k, v) ∈ m := by
  induction m with
  | nil => simp [mapLookup] at h
  | cons p rest ih =>
      obtain ⟨k₀, v₀⟩ := p
      by_cases hk : k₀ = k
      · subst hk
        simp [mapLookup] at h
        subst h
        exact List.mem_cons_self _ _
      · simp only [mapLookup, if_neg hk] at h
        exact List.mem_cons_of_mem _ (ih h)

theorem mapInsert_of_absent {α : Type} {m : List (String × α)} {k : String}
    (v : α) (h : mapLookup m k = none) : mapInsert m k v = m ++ [(k, v)] := by
  induction m with
  | nil => rfl
  | cons p rest ih =>
      obtain ⟨k₀, v₀⟩ := p
      by_cases hk : k₀ = k
      · simp [mapLookup, hk] at h
      · simp only [mapLookup, if_neg hk] at h
        simp [mapInsert, if_neg hk, ih h]

theorem length_mapInsert_present {α : Type} {m : List (String × α)}
    {k : String} {w : α} (v : α) (h : mapLookup m k = some w) :
    (mapInsert m k v).length = m.length := by
  induction m with
  | nil => simp [mapLookup] at h
  | cons p rest ih =>
      obtain ⟨k₀, v₀⟩ := p
      by_cases hk : k₀ = k
      · simp [mapInsert, hk]
      · simp only [mapLookup, if_neg hk] at h
        simp [mapInsert, if_neg hk, ih h]

theorem storeKeys_mapInsert_present {α : Type} {m : List (String × α)}
    {k : String} {w : α} (v : α) (h : mapLookup m k = some w) :
    storeKeys (mapInsert m k v) = storeKeys m := by
  induction m with
  | nil => simp [mapLookup] at h
  | cons p rest ih =>
      obtain ⟨k₀, v₀⟩ := p
      by_cases hk : k₀ = k
      · simp [mapInsert, hk]
      · simp only [mapLookup, if_neg hk] at h
        simp [mapInsert, if_neg hk, ih h]

theorem mapLookup_mapInsert_self {α : Type} (m : List (String × α))
    (k : String) (v : α) : mapLookup (mapInsert m k v) k = some v := by
  induction m with
  | nil => simp [mapInsert, mapLookup]
  | cons p rest ih =>
      obtain ⟨k₀, v₀⟩ := p
      by_cases hk : k₀ = k
      · simp [mapInsert, mapLookup, hk]
      · simp [mapInsert, mapLookup, hk, if_neg hk, ih]

theorem mapLookup_mapInsert_other {α : Type} (m : List (String × α))
    {k k' : String} (v : α) (h : k ≠ k') :
    mapLookup (mapInsert m k v) k' = mapLookup m k' := by
  induction m with
  | nil => simp [mapInsert, mapLookup, h]
  | cons p rest ih =>
      obtain ⟨k₀, v₀⟩ := p
      by_cases hk : k₀ = k
      · subst hk
        simp [mapInsert, mapLookup, h]
      · simp [mapInsert, mapLookup, hk, ih]

theorem mapDelete_sublist {α : Type} (m : List (String × α)) (k : String) :
    List.Sublist (mapDelete m k) m := by
  induction m with
  | nil => simp [mapDelete]
  | cons p rest ih =>
      obtain ⟨k₀, v₀⟩ := p
      by_cases hk : k₀ = k
      · simp only [mapDelete, if_pos hk]
        exact ih.cons _
      · simp only [mapDelete, if_neg hk]
        exact ih.cons₂ _

theorem mapDelete_of_absent {α : Type} {m : List (String × α)} {k : String}
    (h : k ∉ storeKeys m) : mapDelete m k = m := by
  induction m with
  | nil => rfl
  | cons p rest ih =>
      obtain ⟨k₀, v₀⟩ := p
      simp only [storeKeys_cons, List.mem_cons] at h
      push_neg at h
      have hk : k₀ ≠ k := fun hkk => h.1 hkk.symm
      simp [mapDelete, hk, ih h.2]

theorem length_mapDelete_present {α : Type} {m : List (String × α)}
    {k : String} {w : α} (hnd : (storeKeys m).Nodup)
    (h : mapLookup m k = some w) : (mapDelete m k).length + 1 = m.length := by
  induction m with
  | nil => simp [mapLookup] at h
  | cons p rest ih =>
      obtain ⟨k₀, v₀⟩ := p
      simp only [storeKeys_cons, List.nodup_cons] at hnd
      by_cases hk : k₀ = k
      · subst hk
        have : mapDelete ((k₀, v₀) :: rest) k₀ = mapDelete rest k₀ := by
          simp [mapDelete]
        rw [this, mapDelete_of_absent hnd.1]
        simp
      · simp only [mapLookup, if_neg hk] at h
        simp [mapDelete, hk, ← ih hnd.2 h]

@[simp]
theorem countURL_nil (u : String) : countURL [] u = 0 :=
  rfl

@[simp]
theorem countURL_cons (p : String × URLData) (m : List (String × URLData))
    (u : String) :
    countURL (p :: m) u =
      (if p.2.originalURL = u then 1 else 0) + countURL m u :=
  rfl

theorem countURL_append (m l : List (String × URLData)) (u : String) :
    countURL (m ++ l) u = countURL m u + countURL l u := by
  induction m with
  | nil => simp
  | cons p rest ih => simp [ih]; omega

theorem findByURL_eq_none_iff (m : List (String × URLData)) (u : String) :
    findByURL m u = none ↔ countURL m u = 0 := by
  induction m with
  | nil => simp [findByURL]
  | cons p rest ih =>
      obtain ⟨k₀, v₀⟩ := p
      by_cases h : v₀.originalURL = u
      · simp [findByURL, h]
      · simp [findByURL, h, ih]

theorem findByURL_some {m : List (String × URLData)} {u : String}
    {entry : String × URLData} (h : findByURL m u = some entry) :
    entry.2.originalURL = u ∧ entry ∈ m := by
  induction m with
  | nil => simp [findByURL] at h
  | cons p rest ih =>
      obtain ⟨k₀, v₀⟩ := p
      by_cases hu : v₀.originalURL = u
      · simp only [findByURL, if_pos hu, Option.some.injEq] at h
        subst h
        exact ⟨hu, List.mem_cons_self _ _⟩
      · simp only [findByURL, if_neg hu] at h
        exact ⟨(ih h).1, List.mem_cons_of_mem _ (ih h).2⟩

theorem findByURL_append_of_none {m : List (String × URLData)} {u : String}
    (l : List (String × URLData)) (h : findByURL m u = none) :
    findByURL (m ++ l) u = findByURL l u := by
  induction m with
  | nil => simp
  | cons p rest ih =>
      obtain ⟨k₀, v₀⟩ := p
      by_cases hu : v₀.originalURL = u
      · simp [findByURL, hu] at h
      · simp only [findByURL, if_neg hu] at h
        simp only [List.cons_append, findByURL, if_neg hu]
        exact ih h

theorem mapLookup_append_of_none {α : Type} {m : List (String × α)}
    {k : String} (l : List (String × α)) (h : mapLookup m k = none) :
    mapLookup (m ++ l) k = mapLookup l k := by
  induction m with
  | nil => simp
  | cons p rest ih =>
      obtain ⟨k₀, v₀⟩ := p
      by_cases hk : k₀ = k
      · simp [mapLookup, hk] at h
      · simp only [mapLookup, if_neg hk] at h
        simp only [List.cons_append, mapLookup, if_neg hk]
        exact ih h

theorem countURL_pos_of_mem {m : List (String × URLData)} {u : String}
    {p : String × URLData} (hm : p ∈ m) (hu : p.2.originalURL = u) :
    0 < countURL m u := by
  induction m with
  | nil => cases hm
  | cons q rest ih =>
      rcases List.mem_cons.mp hm with rfl | hm'
      · simp [hu]
      · have := ih hm'
        simp only [countURL_cons]
        omega

/-- The internal consistency invariant of `InMemoryStorage`: the `count`
field equals the number of map entries, the short keys are pairwise
distinct (as they are in any Go map), and `count` does not exceed
`capacity`. -/
def StoreInv (s : InMemoryStorage) : Prop :=
  s.count = (s.urls.length : Int) ∧ (storeKeys s.urls).Nodup ∧
    s.count ≤ s.capacity

/-- The states of `InMemoryStorage` reachable from a freshly constructed
store by any sequence of operations.  The two read operations
(`GetURLData`, `GetShortURL`) return no store state in this embedding
because their Go bodies never write to it, so only the three mutating
operations appear. -/
inductive Reachable : InMemoryStorage → Prop where
  | init (capacity : Int) : Reachable (NewInMemoryStorage capacity)
  | create {s : InMemoryStorage} (ctx : Ctx) (urlData : URLData) (now : Nat) :
      Reachable s → Reachable (s.Create ctx urlData now).1
  | update {s : InMemoryStorage} (ctx : Ctx) (urlData : URLData) (now : Nat) :
      Reachable s → Reachable (s.Update ctx urlData now).1
  | delete {s : InMemoryStorage} (ctx : Ctx) (shortURL : String) :
      Reachable s → Reachable (s.Delete ctx shortURL).1

theorem storeInv_new (c : Int) : StoreInv (NewInMemoryStorage c) := by
  unfold StoreInv NewInMemoryStorage
  by_cases h : c ≤ 0
  · simp [h, storeKeys]
  · simp [h, storeKeys]
    omega

theorem storeInv_create (s : InMemoryStorage) (ctx : Ctx) (d : URLData)
    (now : Nat) (h : StoreInv s) : StoreInv (s.Create ctx d now).1 := by
  obtain ⟨hc, hnd, hcap⟩ := h
  cases hctx : ctx.err with
  | some e => simpa [InMemoryStorage.Create, hctx] using ⟨hc, hnd, hcap⟩
  | none =>
      by_cases hfull : s.count ≥ s.capacity
      · simpa [InMemoryStorage.Create, hctx, hfull] using ⟨hc, hnd, hcap⟩
      · cases hlk : mapLookup s.urls d.shortURL with
        | some w =>
            simpa [InMemoryStorage.Create, hctx, hfull, hlk] using
              ⟨hc, hnd, hcap⟩
        | none =>
            have habs :
                mapInsert s.urls d.shortURL
                    { d with createdAt := now, updatedAt := now } =
                  s.urls ++
                    [(d.shortURL, { d with createdAt := now, updatedAt := now })] :=
              mapInsert_of_absent _ hlk
            have hmem : d.shortURL ∉ storeKeys s.urls :=
              (mapLookup_eq_none_iff _ _).mp hlk
            refine ⟨?_, ?_, ?_⟩ <;>
              simp only [InMemoryStorage.Create, hctx, hfull, hlk, if_neg hfull,
                habs]
            · simp [hc]
            · simp [List.nodup_append, hnd, hmem]
            · simp
              omega

theorem storeInv_update (s : InMemoryStorage) (ctx : Ctx) (d : URLData)
    (now : Nat) (h : StoreInv s) : StoreInv (s.Update ctx d now).1 := by
  obtain ⟨hc, hnd, hcap⟩ := h
  cases hctx : ctx.err with
  | some e => simpa [InMemoryStorage.Update, hctx] using ⟨hc, hnd, hcap⟩
  | none =>
      cases hlk : mapLookup s.urls d.shortURL with
      | none =>
          simpa [InMemoryStorage.Update, hctx, hlk] using ⟨hc, hnd, hcap⟩
      | some old =>
          refine ⟨?_, ?_, ?_⟩ <;>
            simp only [InMemoryStorage.Update, hctx, hlk]
          · simpa [length_mapInsert_present _ hlk] using hc
          · simpa [storeKeys_mapInsert_present _ hlk] using hnd
          · simpa using hcap

theorem storeInv_delete (s : InMemoryStorage) (ctx : Ctx) (k : String)
    (h : StoreInv s) : StoreInv (s.Delete ctx k).1 := by
  obtain ⟨hc, hnd, hcap⟩ := h
  cases hctx : ctx.err with
  | some e => simpa [InMemoryStorage.Delete, hctx] using ⟨hc, hnd, hcap⟩
  | none =>
      cases hlk : mapLookup s.urls k with
      | none =>
          simpa [InMemoryStorage.Delete, hctx, hlk] using ⟨hc, hnd, hcap⟩
      | some w =>
          have hlen := length_mapDelete_present hnd hlk
          have hsub : ((mapDelete s.urls k).map Prod.fst).Sublist
              (s.urls.map Prod.fst) :=
            (mapDelete_sublist s.urls k).map Prod.fst
          refine ⟨?_, ?_, ?_⟩ <;>
            simp only [InMemoryStorage.Delete, hctx, hlk]
          · omega
          · exact hnd.sublist hsub
          · omega

theorem reachable_storeInv {s : InMemoryStorage} (h : Reachable s) :
    StoreInv s := by
  induction h with
  | init c => exact storeInv_new c
  | create ctx d now _ ih => exact storeInv_create _ ctx d now ih
  | update ctx d now _ ih => exact storeInv_update _ ctx d now ih
  | delete ctx k _ ih => exact storeInv_delete _ ctx k ih

/-- C1: with a non-cancelled context, `Create` fails with the
capacity-reached error when the current count is at or above capacity,
fails with the key-exists error when the short key is already present,
and otherwise inserts the record with `createdAt` and `updatedAt` both
stamped to the current instant and increments the count by exactly one. -/
theorem create_semantics (s : InMemoryStorage) (d : URLData) (now : Nat) :
    (s.count ≥ s.capacity →
      s.Create .background d now = (s, some .storageCapacityReached)) ∧
    (s.count < s.capacity →
      ∀ w, mapLookup s.urls d.shortURL = some w →
        s.Create .background d now = (s, some .storageShortURLExists)) ∧
    (s.count < s.capacity → mapLookup s.urls d.shortURL = none →
      (s.Create .background d now).2 = none ∧
      (s.Create .background d now).1.count = s.count + 1 ∧
      mapLookup (s.Create .background d now).1.urls d.shortURL =
        some { d with createdAt := now, updatedAt := now }) := by
  refine ⟨?_, ?_, ?_⟩
  · intro hge
    simp [InMemoryStorage.Create, Ctx.err, hge]
  · intro hlt w hw
    simp [InMemoryStorage.Create, Ctx.err, not_le.mpr hlt, hw]
  · intro hlt hnone
    simp [InMemoryStorage.Create, Ctx.err, not_le.mpr hlt, hnone,
      mapLookup_mapInsert_self]

theorem create_semantics_witness :
    (NewInMemoryStorage 1).count < (NewInMemoryStorage 1).capacity ∧
    mapLookup (NewInMemoryStorage 1).urls "k" = none ∧
    (((NewInMemoryStorage 1).Create .background ⟨"k", "u", 0, 0⟩ 5).2 = none ∧
      ((NewInMemoryStorage 1).Create .background ⟨"k", "u", 0, 0⟩ 5).1.count =
        (NewInMemoryStorage 1).count + 1 ∧
      mapLookup
          ((NewInMemoryStorage 1).Create .background ⟨"k", "u", 0, 0⟩ 5).1.urls
          "k" =
        some ⟨"k", "u", 5, 5⟩) :=
  ⟨by decide, by decide,
    (create_semantics (NewInMemoryStorage 1) ⟨"k", "u", 0, 0⟩ 5).2.2
      (by decide) (by decide)⟩

/-- C2 counterexample: in a store that is at capacity, a second `Create`
with an already-present short key fails with the capacity-reached error,
not with the key-already-exists error the claim names.  The state is
reachable: a capacity-1 store after one successful create. -/
theorem create_duplicate_at_capacity_cex :
    mapLookup
        (((NewInMemoryStorage 1).Create .background ⟨"k", "u", 0, 0⟩ 5).1).urls
        "k" =
      some ⟨"k", "u", 5, 5⟩ ∧
    ((((NewInMemoryStorage 1).Create .background ⟨"k", "u", 0, 0⟩ 5).1).Create
          .background ⟨"k", "v", 0, 0⟩ 6).2 =
      some .storageCapacityReached ∧
    some GoErr.storageCapacityReached ≠ some GoErr.storageShortURLExists := by
  refine ⟨by decide, by decide, by decide⟩

/-- C2 amended: in a store state holding a record with shortKey `k` and
strictly below capacity, a second `Create` with the same short key fails
with the key-already-exists error and leaves the whole store state (in
particular the existing record) unchanged; at capacity the same call
fails with the capacity-reached error, likewise leaving the store
unchanged. -/
theorem create_duplicate_spec (s : InMemoryStorage) (d w : URLData)
    (now : Nat) (hlk : mapLookup s.urls d.shortURL = some w) :
    (s.count < s.capacity →
      s.Create .background d now = (s, some .storageShortURLExists)) ∧
    (s.count ≥ s.capacity →
      s.Create .background d now = (s, some .storageCapacityReached)) := by
  constructor
  · intro hlt
    simp [InMemoryStorage.Create, Ctx.err, not_le.mpr hlt, hlk]
  · intro hge
    simp [InMemoryStorage.Create, Ctx.err, hge]

theorem create_duplicate_spec_witness :
    mapLookup
        (((NewInMemoryStorage 2).Create .background ⟨"k", "u", 0, 0⟩ 5).1).urls
        "k" =
      some ⟨"k", "u", 5, 5⟩ ∧
    ((NewInMemoryStorage 2).Create .background ⟨"k", "u", 0, 0⟩ 5).1.count <
      ((NewInMemoryStorage 2).Create .background ⟨"k", "u", 0, 0⟩ 5).1.capacity ∧
    (((NewInMemoryStorage 2).Create .background ⟨"k", "u", 0, 0⟩ 5).1).Create
        .background ⟨"k", "v", 0, 0⟩ 6 =
      (((NewInMemoryStorage 2).Create .background ⟨"k", "u", 0, 0⟩ 5).1,
        some .storageShortURLExists) :=
  ⟨by decide, by decide,
    (create_duplicate_spec
        ((NewInMemoryStorage 2).Create .background ⟨"k", "u", 0, 0⟩ 5).1
        ⟨"k", "v", 0, 0⟩ ⟨"k", "u", 5, 5⟩ 6 (by decide)).1 (by decide)⟩

/-- C3: in every reachable store state the number of live records (and
the `count` field tracking it) never exceeds the configured capacity;
reachability closes over all store operations, so each of them preserves
the bound. -/
theorem reachable_count_le_capacity (s : InMemoryStorage)
    (h : Reachable s) :
    ((s.urls.length : Int)) ≤ s.capacity ∧ s.count ≤ s.capacity := by
  obtain ⟨hc, _, hcap⟩ := reachable_storeInv h
  exact ⟨hc ▸ hcap, hcap⟩

theorem reachable_count_le_capacity_witness :
    ((((NewInMemoryStorage 1).Create .background ⟨"k", "u", 0, 0⟩
          5).1.urls.length : Int)) ≤
        ((NewInMemoryStorage 1).Create .background ⟨"k", "u", 0, 0⟩
          5).1.capacity ∧
      ((NewInMemoryStorage 1).Create .background ⟨"k", "u", 0, 0⟩
          5).1.count ≤
        ((NewInMemoryStorage 1).Create .background ⟨"k", "u", 0, 0⟩
          5).1.capacity :=
  reachable_count_le_capacity _
    (Reachable.create .background ⟨"k", "u", 0, 0⟩ 5 (Reachable.init 1))

/-- C9: in every reachable store state the `count` field equals the
number of entries of the `urls` map; reachability closes over create,
update and delete (the reads return no state), so every operation
preserves the equality. -/
theorem reachable_count_eq_length (s : InMemoryStorage) (h : Reachable s) :
    s.count = (s.urls.length : Int) :=
  (reachable_storeInv h).1

theorem reachable_count_eq_length_witness :
    (((NewInMemoryStorage 1).Create .background ⟨"k", "u", 0, 0⟩ 5).1.Delete
          .background "k").1.count =
      ((((NewInMemoryStorage 1).Create .background ⟨"k", "u", 0, 0⟩ 5).1.Delete
          .background "k").1.urls.length : Int) :=
  reachable_count_eq_length _
    (Reachable.delete .background "k"
      (Reachable.create .background ⟨"k", "u", 0, 0⟩ 5 (Reachable.init 1)))

/-- C10: constructing the in-memory store with a non-positive requested
capacity yields the default capacity 1000, with a positive one yields
exactly that capacity, and in both cases the store starts with an empty
map and count 0. -/
theorem newInMemoryStorage_spec (c : Int) :
    (c ≤ 0 → (NewInMemoryStorage c).capacity = 1000) ∧
    (0 < c → (NewInMemoryStorage c).capacity = c) ∧
    (NewInMemoryStorage c).urls = [] ∧ (NewInMemoryStorage c).count = 0 := by
  refine ⟨fun h => ?_, fun h => ?_, rfl, rfl⟩
  · simp [NewInMemoryStorage, h]
  · simp [NewInMemoryStorage, not_le.mpr h]

theorem newInMemoryStorage_spec_witness :
    (NewInMemoryStorage (-3)).capacity = 1000 ∧
    (NewInMemoryStorage 7).capacity = 7 ∧
    (NewInMemoryStorage (-3)).urls = [] ∧ (NewInMemoryStorage 7).count = 0 :=
  ⟨(newInMemoryStorage_spec (-3)).1 (by decide),
    (newInMemoryStorage_spec 7).2.1 (by decide),
    (newInMemoryStorage_spec (-3)).2.2.1, (newInMemoryStorage_spec 7).2.2.2⟩

/-- C4: when the supplied context is already cancelled or its deadline
already expired, every store operation returns exactly the context error
(which is distinct from the three domain errors) and the store state is
completely unchanged. -/
theorem cancelled_context_no_side_effects (s : InMemoryStorage) (ctx : Ctx)
    (e : GoErr) (d : URLData) (now : Nat) (k u : String)
    (h : ctx.err = some e) :
    s.Create ctx d now = (s, some e) ∧
    s.GetURLData ctx k = (URLData.empty, some e) ∧
    s.GetShortURL ctx u = ("", some e) ∧
    s.Update ctx d now = (s, some e) ∧
    s.Delete ctx k = (s, some e) ∧
    e ≠ .storageShortURLExists ∧ e ≠ .storageShortURLNotFound ∧
    e ≠ .storageCapacityReached := by
  cases ctx with
  | background => simp [Ctx.err] at h
  | canceled =>
      simp only [Ctx.err, Option.some.injEq] at h
      subst h
      exact ⟨rfl, rfl, rfl, rfl, rfl, by decide, by decide, by decide⟩
  | deadlineExceeded =>
      simp only [Ctx.err, Option.some.injEq] at h
      subst h
      exact ⟨rfl, rfl, rfl, rfl, rfl, by decide, by decide, by decide⟩

theorem cancelled_context_no_side_effects_witness :
    Ctx.err .canceled = some .ctxCanceled ∧
    ((NewInMemoryStorage 1).Create .canceled ⟨"k", "u", 0, 0⟩ 5 =
        (NewInMemoryStorage 1, some .ctxCanceled) ∧
      (NewInMemoryStorage 1).Delete .canceled "k" =
        (NewInMemoryStorage 1, some .ctxCanceled) ∧
      GoErr.ctxCanceled ≠ GoErr.storageCapacityReached) :=
  ⟨rfl,
    (cancelled_context_no_side_effects (NewInMemoryStorage 1) .canceled
        .ctxCanceled ⟨"k", "u", 0, 0⟩ 5 "k" "u" rfl).1,
    (cancelled_context_no_side_effects (NewInMemoryStorage 1) .canceled
        .ctxCanceled ⟨"k", "u", 0, 0⟩ 5 "k" "u" rfl).2.2.2.2.1,
    (cancelled_context_no_side_effects (NewInMemoryStorage 1) .canceled
        .ctxCanceled ⟨"k", "u", 0, 0⟩ 5 "k" "u" rfl).2.2.2.2.2.2.2⟩

/-- C6: for a store state holding a record `r` with shortKey `k`, after a
successful service `UpdateURL k u2` (live context; the store clock has
strictly advanced past the record's `updatedAt`), reading `k` yields a
record whose `createdAt` equals its value before the update, whose
`updatedAt` is strictly greater than before, whose `originalURL` is `u2`,
and whose short key is unchanged. -/
theorem updateURL_preserves_identity (s : InMemoryStorage) (k u2 : String)
    (r : URLData) (nowSvc nowStore : Nat)
    (hlk : mapLookup s.urls k = some r) (hk : r.shortURL = k)
    (hmono : r.updatedAt < nowStore) :
    (urlService.UpdateURL s .background k u2 nowSvc nowStore).2 = none ∧
    (urlService.GetURLData
        (urlService.UpdateURL s .background k u2 nowSvc nowStore).1
        .background k).2 = none ∧
    (urlService.GetURLData
        (urlService.UpdateURL s .background k u2 nowSvc nowStore).1
        .background k).1.createdAt = r.createdAt ∧
    r.updatedAt <
      (urlService.GetURLData
          (urlService.UpdateURL s .background k u2 nowSvc nowStore).1
          .background k).1.updatedAt ∧
    (urlService.GetURLData
        (urlService.UpdateURL s .background k u2 nowSvc nowStore).1
        .background k).1.originalURL = u2 ∧
    (urlService.GetURLData
        (urlService.UpdateURL s .background k u2 nowSvc nowStore).1
        .background k).1.shortURL = r.shortURL := by
  simp [urlService.UpdateURL, urlService.GetURLData,
    InMemoryStorage.GetURLData, InMemoryStorage.Update, Ctx.err, hlk, hk,
    mapLookup_mapInsert_self, hmono]

theorem updateURL_preserves_identity_witness :
    mapLookup
        (((NewInMemoryStorage 2).Create .background ⟨"k", "u", 0, 0⟩ 2).1).urls
        "k" =
      some ⟨"k", "u", 2, 2⟩ ∧
    (urlService.GetURLData
        (urlService.UpdateURL
            ((NewInMemoryStorage 2).Create .background ⟨"k", "u", 0, 0⟩ 2).1
            .background "k" "v" 3 4).1
        .background "k").1.createdAt = 2 ∧
    (2 : Nat) <
      (urlService.GetURLData
          (urlService.UpdateURL
              ((NewInMemoryStorage 2).Create .background ⟨"k", "u", 0, 0⟩ 2).1
              .background "k" "v" 3 4).1
          .background "k").1.updatedAt ∧
    (urlService.GetURLData
        (urlService.UpdateURL
            ((NewInMemoryStorage 2).Create .background ⟨"k", "u", 0, 0⟩ 2).1
            .background "k" "v" 3 4).1
        .background "k").1.originalURL = "v" :=
  ⟨by decide,
    (updateURL_preserves_identity
        ((NewInMemoryStorage 2).Create .background ⟨"k", "u", 0, 0⟩ 2).1
        "k" "v" ⟨"k", "u", 2, 2⟩ 3 4 (by decide) rfl (by decide)).2.2.1,
    (updateURL_preserves_identity
        ((NewInMemoryStorage 2).Create .background ⟨"k", "u", 0, 0⟩ 2).1
        "k" "v" ⟨"k", "u", 2, 2⟩ 3 4 (by decide) rfl (by decide)).2.2.2.1,
    (updateURL_preserves_identity
        ((NewInMemoryStorage 2).Create .background ⟨"k", "u", 0, 0⟩ 2).1
        "k" "v" ⟨"k", "u", 2, 2⟩ 3 4 (by decide) rfl (by decide)).2.2.2.2.1⟩

/-- C8: the middleware sweep runs with a one-minute interval and a
three-minute inactivity threshold, and one pass executed at instant `now`
keeps exactly the entries whose `lastSeen` is within the threshold:
every entry idle for longer than the threshold at the time of the pass is
removed, and no other entry is removed. -/
theorem cleanupPass_removes_exactly_inactive :
    cleanupInterval = 60 ∧ clientInactiveFor = 180 ∧
    ∀ (clients : List (String × ClientEntry)) (now : ℚ)
      (p : String × ClientEntry),
      p ∈ cleanupPass clients now ↔
        p ∈ clients ∧ ¬(now - p.2.lastSeen > clientInactiveFor) := by
  refine ⟨rfl, rfl, ?_⟩
  intro clients now p
  induction clients with
  | nil => simp [cleanupPass]
  | cons q rest ih =>
      obtain ⟨ip, entry⟩ := q
      by_cases h : now - entry.lastSeen > clientInactiveFor
      · simp only [cleanupPass, if_pos h, ih, List.mem_cons]
        constructor
        · rintro ⟨hm, hkeep⟩
          exact ⟨Or.inr hm, hkeep⟩
        · rintro ⟨rfl | hm, hkeep⟩
          · exact absurd h hkeep
          · exact ⟨hm, hkeep⟩
      · simp only [cleanupPass, if_neg h, List.mem_cons, ih]
        constructor
        · rintro (rfl | ⟨hm, hkeep⟩)
          · exact ⟨Or.inl rfl, h⟩
          · exact ⟨Or.inr hm, hkeep⟩
        · rintro ⟨rfl | hm, hkeep⟩
          · exact Or.inl rfl
          · exact Or.inr ⟨hm, hkeep⟩

/-- A store state with spare capacity holding two records that share the
original URL "u"; it is reachable by two raw `Create` calls with distinct
short keys. -/
def twoRecordStore : InMemoryStorage :=
  { urls := [("a", ⟨"a", "u", 10, 10⟩), ("b", ⟨"b", "u", 11, 11⟩)],
    capacity := 10, count := 2 }

/-- C5 counterexample: on a store with spare capacity that already holds
two records for the URL "u", calling the service `CreateShortURL "u"`
twice succeeds both times yet leaves two records for "u", not exactly
one as the claim states. -/
theorem createShortURL_twice_cex :
    twoRecordStore.count < twoRecordStore.capacity ∧
    (urlService.CreateShortURL twoRecordStore .background "u" (some "g")
        12 12).2.2 = none ∧
    (urlService.CreateShortURL
        (urlService.CreateShortURL twoRecordStore .background "u" (some "g")
            12 12).1
        .background "u" (some "h") 13 13).2.2 = none ∧
    countURL
        (urlService.CreateShortURL
            (urlService.CreateShortURL twoRecordStore .background "u"
                (some "g") 12 12).1
            .background "u" (some "h") 13 13).1.urls "u" = 2 := by
  decide

/-- C5 amended: for a store state with spare capacity holding at most one
record for the URL `u`, and an identifier generator that succeeds with a
key not already present, calling the service `CreateShortURL u` twice
succeeds both times, returns the same short key both times, leaves the
store unchanged by the second call, and leaves exactly one record for `u`
in the store. -/
theorem createShortURL_idempotent (s : InMemoryStorage) (u g : String)
    (g2 : Option String) (n1 n1s n2 n2s : Nat)
    (hcap : s.count < s.capacity)
    (hfresh : mapLookup s.urls g = none)
    (hone : countURL s.urls u ≤ 1) :
    (urlService.CreateShortURL s .background u (some g) n1 n1s).2.2 = none ∧
    (urlService.CreateShortURL
        (urlService.CreateShortURL s .background u (some g) n1 n1s).1
        .background u g2 n2 n2s).2.2 = none ∧
    (urlService.CreateShortURL
        (urlService.CreateShortURL s .background u (some g) n1 n1s).1
        .background u g2 n2 n2s).2.1.shortURL =
      (urlService.CreateShortURL s .background u (some g) n1 n1s).2.1.shortURL ∧
    (urlService.CreateShortURL
        (urlService.CreateShortURL s .background u (some g) n1 n1s).1
        .background u g2 n2 n2s).1 =
      (urlService.CreateShortURL s .background u (some g) n1 n1s).1 ∧
    countURL
        (urlService.CreateShortURL
            (urlService.CreateShortURL s .background u (some g) n1 n1s).1
            .background u g2 n2 n2s).1.urls u = 1 := by
  rcases Nat.lt_or_ge (countURL s.urls u) 1 with hc0 | hc1
  · have hcount : countURL s.urls u = 0 := by omega
    have hfind : findByURL s.urls u = none :=
      (findByURL_eq_none_iff _ _).mpr hcount
    have habs :=
      mapInsert_of_absent (m := s.urls) (k := g)
        (⟨g, u, n1s, n1s⟩ : URLData) hfresh
    have hfirst :
        urlService.CreateShortURL s .background u (some g) n1 n1s =
          ({ s with
              urls := s.urls ++ [(g, ⟨g, u, n1s, n1s⟩)],
              count := s.count + 1 }, ⟨g, u, n1, n1⟩, none) := by
      simp [urlService.CreateShortURL, InMemoryStorage.GetShortURL,
        InMemoryStorage.Create, Ctx.err, hfind, not_le.mpr hcap, hfresh, habs]
    have hfind2 :
        findByURL (s.urls ++ [(g, (⟨g, u, n1s, n1s⟩ : URLData))]) u =
          some (g, ⟨g, u, n1s, n1s⟩) := by
      rw [findByURL_append_of_none _ hfind]
      simp [findByURL]
    have hlk2 :
        mapLookup (s.urls ++ [(g, (⟨g, u, n1s, n1s⟩ : URLData))]) g =
          some ⟨g, u, n1s, n1s⟩ := by
      rw [mapLookup_append_of_none _ hfresh]
      simp [mapLookup]
    have hsecond :
        urlService.CreateShortURL
            { s with
              urls := s.urls ++ [(g, ⟨g, u, n1s, n1s⟩)],
              count := s.count + 1 } .background u g2 n2 n2s =
          ({ s with
              urls := s.urls ++ [(g, ⟨g, u, n1s, n1s⟩)],
              count := s.count + 1 }, ⟨g, u, n1s, n1s⟩, none) := by
      simp [urlService.CreateShortURL, InMemoryStorage.GetShortURL,
        InMemoryStorage.GetURLData, Ctx.err, hfind2, hlk2]
    rw [hfirst]
    simp only [hsecond]
    simp [countURL_append, hcount]
  · have hcount : countURL s.urls u = 1 := le_antisymm hone hc1
    have hne : findByURL s.urls u ≠ none := by
      intro hnone
      rw [findByURL_eq_none_iff] at hnone
      omega
    obtain ⟨entry, hfind⟩ := Option.ne_none_iff_exists'.mp hne
    obtain ⟨k₀, r₀⟩ := entry
    obtain ⟨hu₀, hmem⟩ := findByURL_some hfind
    obtain ⟨r₁, hr₁⟩ := mapLookup_isSome_of_mem hmem
    have hcall : ∀ (gg : Option String) (a b : Nat),
        urlService.CreateShortURL s .background u gg a b = (s, r₁, none) := by
      intro gg a b
      simp [urlService.CreateShortURL, InMemoryStorage.GetShortURL,
        InMemoryStorage.GetURLData, Ctx.err, hfind, hr₁]
    simp [hcall, hcount]

theorem createShortURL_idempotent_witness :
    (NewInMemoryStorage 5).count < (NewInMemoryStorage 5).capacity ∧
    countURL (NewInMemoryStorage 5).urls "u" ≤ 1 ∧
    (urlService.CreateShortURL
        (urlService.CreateShortURL (NewInMemoryStorage 5) .background "u"
            (some "g") 1 1).1
        .background "u" (some "h") 2 2).2.1.shortURL =
      (urlService.CreateShortURL (NewInMemoryStorage 5) .background "u"
          (some "g") 1 1).2.1.shortURL ∧
    countURL
        (urlService.CreateShortURL
            (urlService.CreateShortURL (NewInMemoryStorage 5) .background "u"
                (some "g") 1 1).1
            .background "u" (some "h") 2 2).1.urls "u" = 1 :=
  ⟨by decide, by decide,
    (createShortURL_idempotent (NewInMemoryStorage 5) "u" "g" (some "h")
        1 1 2 2 (by decide) (by decide) (by decide)).2.2.1,
    (createShortURL_idempotent (NewInMemoryStorage 5) "u" "g" (some "h")
        1 1 2 2 (by decide) (by decide) (by decide)).2.2.2.2⟩

theorem allow_at_last {R m : ℚ} (t : ℚ) (hmR : m ≤ R) (h1 : 1 ≤ m) :
    RateLimiter.allow ⟨R, R, m, t⟩ t = (true, ⟨R, R, m - 1, t⟩) := by
  unfold RateLimiter.allow RateLimiter.advance
  simp [min_eq_right hmR, h1]

theorem allowRun_drain (R t : ℚ) (m : Nat) (hmR : (m : ℚ) ≤ R) :
    RateLimiter.allowRun ⟨R, R, (m : ℚ), t⟩ t m =
      (List.replicate m true, ⟨R, R, 0, t⟩) := by
  induction m with
  | zero => simp [RateLimiter.allowRun]
  | succ n ih =>
      have hnR : ((n : ℚ)) ≤ R := by
        refine le_trans ?_ hmR
        push_cast
        linarith
      have h1 : (1 : ℚ) ≤ ((n + 1 : Nat) : ℚ) := by
        push_cast
        linarith [Nat.cast_nonneg (α := ℚ) n]
      have hsub : ((n + 1 : Nat) : ℚ) - 1 = (n : ℚ) := by
        push_cast
        ring
      simp only [RateLimiter.allowRun]
      rw [allow_at_last t hmR h1]
      simp only [hsub]
      rw [ih hnR]
      simp [List.replicate_succ]

theorem allow_full_start (R t : ℚ) (hR : 1 ≤ R) (ht : 0 ≤ t) :
    RateLimiter.allow ⟨R, R, R, 0⟩ t = (true, ⟨R, R, R - 1, t⟩) := by
  have hb : (0 : ℚ) ≤ (t - 0) * R := by
    have := mul_nonneg ht (le_trans zero_le_one hR)
    simpa using this
  have hmin : min R (R + (t - 0) * R) = R :=
    min_eq_left (le_add_of_nonneg_right hb)
  simp only [RateLimiter.allow, RateLimiter.advance, hmin]
  rw [if_pos hR]

theorem allowRun_full (R : Nat) (t : ℚ) (hR : 1 ≤ R) (ht : 0 ≤ t) :
    RateLimiter.allowRun ⟨(R : ℚ), (R : ℚ), (R : ℚ), 0⟩ t R =
      (List.replicate R true, ⟨(R : ℚ), (R : ℚ), 0, t⟩) := by
  obtain ⟨n, rfl⟩ : ∃ n, R = n + 1 := ⟨R - 1, by omega⟩
  have hR1 : (1 : ℚ) ≤ ((n + 1 : Nat) : ℚ) := by
    push_cast
    linarith [Nat.cast_nonneg (α := ℚ) n]
  have hsub : ((n + 1 : Nat) : ℚ) - 1 = (n : ℚ) := by
    push_cast
    ring
  have hnR : ((n : ℚ)) ≤ ((n + 1 : Nat) : ℚ) := by
    push_cast
    linarith
  simp only [RateLimiter.allowRun]
  rw [allow_full_start _ t hR1 ht]
  simp only [hsub]
  rw [allowRun_drain _ t n hnR]
  simp [List.replicate_succ]

theorem allow_empty (R t : ℚ) (hR : 0 ≤ R) :
    (RateLimiter.allow ⟨R, R, 0, t⟩ t).1 = false := by
  have hmin : min R ((0 : ℚ) + (t - t) * R) = 0 := by
    simp [min_eq_right hR]
  simp only [RateLimiter.allow, RateLimiter.advance, hmin]
  rw [if_neg (by norm_num)]

theorem allow_after_wait (R t d : ℚ) (hR : 1 ≤ R) (hd : 1 ≤ d) :
    (RateLimiter.allow ⟨R, R, 0, t⟩ (t + d)).1 = true := by
  have hdR : R ≤ d * R := le_mul_of_one_le_left (le_trans zero_le_one hR) hd
  have h1 : (1 : ℚ) ≤ min R ((0 : ℚ) + (t + d - t) * R) := by
    have hsub : t + d - t = d := by ring
    rw [hsub, zero_add]
    exact le_min hR (le_trans hR hdR)
  simp only [RateLimiter.allow, RateLimiter.advance]
  rw [if_pos h1]

/-- C7 counterexample: with `RateLimit = 1` and `RatePeriod` half a
second, a fresh client's first request at time 0 passes, yet a further
request after waiting the full configured period is denied — the
middleware's bucket refills per second, ignoring the configured period,
so the claimed "after waiting at least the period a further call
succeeds" fails on the code. -/
theorem rateLimit_period_cex :
    (rateLimitStep ⟨1, 1 / 2⟩ [] "a" 0).1 = true ∧
    (rateLimitStep ⟨1, 1 / 2⟩ (rateLimitStep ⟨1, 1 / 2⟩ [] "a" 0).2 "a"
        (1 / 2)).1 = false ∧
    ((1 : ℚ) / 2) - 0 ≥ (⟨1, 1 / 2⟩ : Config).ratePeriod := by
  have hnew : newRateLimiter 1 1 = (⟨1, 1, 1, 0⟩ : RateLimiter) := by
    simp [newRateLimiter]
  have hallow1 : RateLimiter.allow ⟨1, 1, 1, 0⟩ 0 =
      (true, ⟨1, 1, 0, 0⟩) := by
    have := allow_full_start 1 0 le_rfl le_rfl
    rw [this]
    norm_num
  have hfirst : rateLimitStep ⟨1, 1 / 2⟩ [] "a" 0 =
      (true, [("a", ⟨⟨1, 1, 0, 0⟩, 0⟩)]) := by
    simp [rateLimitStep, mapLookup, mapInsert, hnew, hallow1]
  have hadv : RateLimiter.advance ⟨1, 1, 0, 0⟩ (1 / 2) = 1 / 2 := by
    simp only [RateLimiter.advance]
    rw [min_eq_right (by norm_num)]
    norm_num
  have hallow2 : (RateLimiter.allow ⟨1, 1, 0, 0⟩ (1 / 2)).1 = false := by
    simp only [RateLimiter.allow, hadv]
    rw [if_neg (by norm_num)]
  refine ⟨by rw [hfirst], ?_, by norm_num⟩
  rw [hfirst]
  simpa [rateLimitStep, mapLookup, mapInsert] using hallow2

/-- C7 amended: for a fresh client key the middleware installs the token
bucket `rate.NewLimiter(rate.Limit(RateLimit), RateLimit)` — burst equal
to `RateLimit` and a refill of `RateLimit` tokens per second, the
configured `RatePeriod` playing no role — and stamps `lastSeen`;
consequently, for `RateLimit = R ≥ 1`, exactly R calls in immediate
succession succeed, the (R+1)-th is denied, and a further call after
waiting at least one second (the hardcoded refill period, which matches
the configured period only when that period is one second) succeeds. -/
theorem rateLimit_per_second (cfg : Config)
    (clients : List (String × ClientEntry)) (ip : String) (R : Nat)
    (t d : ℚ) (hR : cfg.rateLimit = (R : Int)) (hR1 : 1 ≤ R) (ht : 0 ≤ t)
    (hd : 1 ≤ d) (hfresh : mapLookup clients ip = none) :
    mapLookup (rateLimitStep cfg clients ip t).2 ip =
      some
        { limiter := ((newRateLimiter cfg.rateLimit cfg.rateLimit).allow t).2,
          lastSeen := t } ∧
    (rateLimitStep cfg clients ip t).1 =
      ((newRateLimiter cfg.rateLimit cfg.rateLimit).allow t).1 ∧
    ((newRateLimiter cfg.rateLimit cfg.rateLimit).allowRun t R).1 =
      List.replicate R true ∧
    (((newRateLimiter cfg.rateLimit cfg.rateLimit).allowRun t R).2.allow
        t).1 = false ∧
    (((newRateLimiter cfg.rateLimit cfg.rateLimit).allowRun t R).2.allow
        (t + d)).1 = true := by
  have hlim : newRateLimiter cfg.rateLimit cfg.rateLimit =
      ⟨(R : ℚ), (R : ℚ), (R : ℚ), 0⟩ := by
    simp [newRateLimiter, hR]
  have hR1q : (1 : ℚ) ≤ (R : ℚ) := by exact_mod_cast hR1
  have hR0q : (0 : ℚ) ≤ (R : ℚ) := le_trans zero_le_one hR1q
  refine ⟨?_, ?_, ?_, ?_, ?_⟩
  · simp [rateLimitStep, hfresh, mapLookup_mapInsert_self]
  · simp [rateLimitStep, hfresh, mapLookup_mapInsert_self]
  · rw [hlim, allowRun_full R t hR1 ht]
  · rw [hlim, allowRun_full R t hR1 ht]
    exact allow_empty _ t hR0q
  · rw [hlim, allowRun_full R t hR1 ht]
    exact allow_after_wait _ t d hR1q hd

theorem rateLimit_per_second_witness :
    mapLookup (rateLimitStep ⟨2, 5⟩ [] "a" 0).2 "a" =
      some
        { limiter := ((newRateLimiter 2 2).allow 0).2, lastSeen := 0 } ∧
    ((newRateLimiter 2 2).allowRun 0 2).1 = List.replicate 2 true ∧
    (((newRateLimiter 2 2).allowRun 0 2).2.allow 0).1 = false ∧
    (((newRateLimiter 2 2).allowRun 0 2).2.allow (0 + 1)).1 = true :=
  ⟨(rateLimit_per_second ⟨2, 5⟩ [] "a" 2 0 1 rfl (by norm_num) (by norm_num)
      (by norm_num) rfl).1,
    (rateLimit_per_second ⟨2, 5⟩ [] "a" 2 0 1 rfl (by norm_num) (by norm_num)
      (by norm_num) rfl).2.2.1,
    (rateLimit_per_second ⟨2, 5⟩ [] "a" 2 0 1 rfl (by norm_num) (by norm_num)
      (by norm_num) rfl).2.2.2.1,
    (rateLimit_per_second ⟨2, 5⟩ [] "a" 2 0 1 rfl (by norm_num) (by norm_num)
      (by norm_num) rfl).2.2.2.2⟩
